import Mathlib

/-!
Verification of the grabcad_interface synchronization core.

Shallow embedding of `src/filesystem.py`, the tree-walk part of
`src/api.py`, the progress and digest parts of `src/entities/files.py`,
and the ledger part of `src/state.py`.

Modelling conventions:
- Python `dict` objects are modelled as insertion-ordered association
  lists (`List (κ × α)`) with last-write-wins `upsert`, matching CPython
  semantics (assignment to an existing key keeps its position).
- Filesystem paths are modelled as lists of path components
  (`List String`); `os.path.join` is list append, `os.path.normpath` is
  an abstract parameter `np`.
- The on-disk filesystem is a function `List String → Option FsEntry`;
  md5 hex digests are an abstract function parameter.
- Python exceptions (KeyError, ZeroDivisionError, FileNotFoundError
  where uncaught) are modelled with `Option`.
-/

set_option autoImplicit false

namespace GrabCad

/-! ## Data model (`src/entities/grabcad.py`, `src/entities/files.py`) -/

inductive ChangeCode where
  | ADDED
  | UPDATED
  | DELETED
deriving DecidableEq

structure FileShort where
  item_id : Nat
  filename : String
  path : List String
  last_version : Nat
  last_update : Int
deriving DecidableEq

structure Change where
  file : FileShort
  change_code : ChangeCode
deriving DecidableEq

structure User where
  user_id : Nat
  username : String
deriving DecidableEq

structure Commit where
  commit_id : Nat
  name : String
  message : String
  created_at : Int
  author : User
  changes : List Change
deriving DecidableEq

/-! ## Python dict model -/

def lookup {κ α : Type} [DecidableEq κ] : List (κ × α) → κ → Option α
  | [], _ => none
  | (k', v) :: rest, k => if k' = k then some v else lookup rest k

def upsert {κ α : Type} [DecidableEq κ] : List (κ × α) → κ → α → List (κ × α)
  | [], k, v => [(k, v)]
  | (k', v') :: rest, k, v =>
      if k' = k then (k, v) :: rest else (k', v') :: upsert rest k v

def keys {κ α : Type} (m : List (κ × α)) : List κ := m.map Prod.fst

def values {κ α : Type} (m : List (κ × α)) : List α := m.map Prod.snd

theorem lookup_upsert {κ α : Type} [DecidableEq κ] (m : List (κ × α)) (k k' : κ) (v : α) :
    lookup (upsert m k v) k' = if k = k' then some v else lookup m k' := by
  induction m with
  | nil => simp [lookup, upsert]
  | cons p rest ih =>
    obtain ⟨pk, pv⟩ := p
    by_cases hpk : pk = k
    · subst hpk
      simp only [upsert, if_pos rfl, lookup]
      by_cases hk' : pk = k'
      · simp [hk']
      · simp [hk']
    · simp only [upsert, if_neg hpk, lookup]
      by_cases hpk' : pk = k'
      · subst hpk'
        have hne : ¬ k = pk := fun h => hpk h.symm
        simp [hne]
      · simp [hpk', ih]

theorem mem_of_lookup {κ α : Type} [DecidableEq κ] (m : List (κ × α)) (k : κ) (v : α)
    (h : lookup m k = some v) : (k, v) ∈ m := by
  induction m with
  | nil => simp [lookup] at h
  | cons p rest ih =>
    obtain ⟨pk, pv⟩ := p
    by_cases hpk : pk = k
    · subst hpk
      rw [lookup, if_pos rfl] at h
      injection h with h
      subst h
      exact List.mem_cons_self _ _
    · simp only [lookup, if_neg hpk] at h
      exact List.mem_cons_of_mem _ (ih h)

theorem lookup_of_mem {κ α : Type} [DecidableEq κ] (m : List (κ × α)) (k : κ) (v : α)
    (hnd : (keys m).Nodup) (h : (k, v) ∈ m) : lookup m k = some v := by
  induction m with
  | nil => simp at h
  | cons p rest ih =>
    obtain ⟨pk, pv⟩ := p
    simp only [keys, List.map_cons, List.nodup_cons] at hnd
    rcases List.mem_cons.mp h with h1 | h1
    · rw [Prod.mk.injEq] at h1
      simp [lookup, h1.1.symm, h1.2]
    · have hk : pk ≠ k := by
        intro he
        subst he
        exact hnd.1 (List.mem_map.mpr ⟨(pk, v), h1, rfl⟩)
      simp [lookup, hk, ih hnd.2 h1]

theorem keys_upsert {κ α : Type} [DecidableEq κ] (m : List (κ × α)) (k : κ) (v : α) :
    keys (upsert m k v) = if k ∈ keys m then keys m else keys m ++ [k] := by
  induction m with
  | nil => simp [keys, upsert]
  | cons p rest ih =>
    obtain ⟨pk, pv⟩ := p
    by_cases hpk : pk = k
    · subst hpk
      simp [upsert, keys]
    · simp only [upsert, if_neg hpk, keys, List.map_cons, List.mem_cons]
      have : ¬ k = pk := fun h => hpk h.symm
      by_cases hk : k ∈ keys rest
      · simp only [keys] at hk ih
        simp [this, hk, ih]
      · simp only [keys] at hk ih
        simp [this, hk, ih]

theorem nodup_keys_upsert {κ α : Type} [DecidableEq κ] (m : List (κ × α)) (k : κ) (v : α)
    (hnd : (keys m).Nodup) : (keys (upsert m k v)).Nodup := by
  rw [keys_upsert]
  by_cases hk : k ∈ keys m
  · simpa [hk]
  · simp only [hk, if_false]
    simpa [List.nodup_append, hk] using hnd

theorem mem_upsert {κ α : Type} [DecidableEq κ] (m : List (κ × α)) (k : κ) (v : α)
    (p : κ × α) (h : p ∈ upsert m k v) : p = (k, v) ∨ p ∈ m := by
  induction m with
  | nil =>
    simp only [upsert, List.mem_singleton] at h
    exact Or.inl h
  | cons q rest ih =>
    obtain ⟨qk, qv⟩ := q
    by_cases hqk : qk = k
    · subst hqk
      rw [upsert, if_pos rfl] at h
      rcases List.mem_cons.mp h with h | h
      · exact Or.inl h
      · exact Or.inr (List.mem_cons_of_mem _ h)
    · simp only [upsert, if_neg hqk, List.mem_cons] at h
      rcases h with h | h
      · exact Or.inr (by simp [h])
      · rcases ih h with h1 | h1
        · exact Or.inl h1
        · exact Or.inr (List.mem_cons_of_mem _ h1)

theorem lookup_eq_none_iff {κ α : Type} [DecidableEq κ] (m : List (κ × α)) (k : κ) :
    lookup m k = none ↔ k ∉ keys m := by
  induction m with
  | nil => simp [lookup, keys]
  | cons p rest ih =>
    obtain ⟨pk, pv⟩ := p
    by_cases hpk : pk = k
    · subst hpk
      simp [lookup, keys]
    · have : ¬ k = pk := fun h => hpk h.symm
      simp [lookup, keys, hpk, this, ih]

theorem lookup_isSome_iff {κ α : Type} [DecidableEq κ] (m : List (κ × α)) (k : κ) :
    (lookup m k).isSome = true ↔ k ∈ keys m := by
  rcases h : lookup m k with _ | v
  · rw [lookup_eq_none_iff] at h
    simp [h]
  · have : (k, v) ∈ m := mem_of_lookup m k v h
    have hk : k ∈ keys m := List.mem_map.mpr ⟨(k, v), this, rfl⟩
    simp [hk]

/-! ## `Filesystem.file_changes` (`src/filesystem.py` lines 31-49) -/

/-- All (FileVersion, ChangeKind) pairs of a commit list, in commit order
(the two nested `for` loops of `file_changes`). -/
def changesOf (commits : List Commit) : List Change :=
  (commits.map Commit.changes).flatten

/-- One iteration of the `file_changes` working-map update: replace the entry
for `change.file.item_id` only when the incoming version is strictly greater,
insert when the identity is new. -/
def fileChangesStep (m : List (Nat × Change)) (c : Change) : List (Nat × Change) :=
  match lookup m c.file.item_id with
  | some prev =>
      if prev.file.last_version < c.file.last_version then upsert m c.file.item_id c else m
  | none => upsert m c.file.item_id c

/-- The `changed_files` dict after folding all commits. -/
def changedFilesMap (commits : List Commit) : List (Nat × Change) :=
  (changesOf commits).foldl fileChangesStep []

/-- `Filesystem.file_changes`: the `(changed, deleted)` pair. -/
def file_changes (commits : List Commit) : List FileShort × List FileShort :=
  let vals := values (changedFilesMap commits)
  ((vals.filter (fun x => x.change_code ≠ ChangeCode.DELETED)).map Change.file,
   (vals.filter (fun x => x.change_code = ChangeCode.DELETED)).map Change.file)

/-- The working-map update restricted to a single key. -/
def pickLater (o : Option Change) (c : Change) : Option Change :=
  match o with
  | none => some c
  | some p => if p.file.last_version < c.file.last_version then some c else some p

theorem lookup_fileChangesStep (m : List (Nat × Change)) (c : Change) (k : Nat) :
    lookup (fileChangesStep m c) k =
      if c.file.item_id = k then pickLater (lookup m k) c else lookup m k := by
  rcases hm : lookup m c.file.item_id with _ | prev
  · have hstep : fileChangesStep m c = upsert m c.file.item_id c := by
      unfold fileChangesStep
      rw [hm]
    rw [hstep, lookup_upsert]
    by_cases hk : c.file.item_id = k
    · subst hk
      simp [pickLater, hm]
    · simp [hk]
  · have hstep : fileChangesStep m c =
        if prev.file.last_version < c.file.last_version then upsert m c.file.item_id c else m := by
      unfold fileChangesStep
      rw [hm]
    rw [hstep]
    by_cases hv : prev.file.last_version < c.file.last_version
    · rw [if_pos hv, lookup_upsert]
      by_cases hk : c.file.item_id = k
      · subst hk
        simp [pickLater, hm, hv]
      · simp [hk]
    · rw [if_neg hv]
      by_cases hk : c.file.item_id = k
      · subst hk
        simp [pickLater, hm, hv]
      · simp [hk]

theorem lookup_foldl_fileChangesStep (l : List Change) :
    ∀ (m : List (Nat × Change)) (k : Nat),
      lookup (l.foldl fileChangesStep m) k =
        (l.filter (fun c => c.file.item_id = k)).foldl pickLater (lookup m k) := by
  induction l with
  | nil => intro m k; rfl
  | cons c l ih =>
    intro m k
    rw [List.foldl_cons, ih, List.filter_cons]
    by_cases hk : c.file.item_id = k
    · rw [if_pos (by simp [hk]), List.foldl_cons, lookup_fileChangesStep, if_pos hk]
    · rw [if_neg (by simp [hk]), lookup_fileChangesStep, if_neg hk]

theorem pickLater_foldl_some (l : List Change) :
    ∀ a : Change, ∃ c, l.foldl pickLater (some a) = some c := by
  induction l with
  | nil => intro a; exact ⟨a, rfl⟩
  | cons x l ih =>
    intro a
    rw [List.foldl_cons]
    by_cases hv : a.file.last_version < x.file.last_version
    · rw [show pickLater (some a) x = some x by simp [pickLater, hv]]
      exact ih x
    · rw [show pickLater (some a) x = some a by simp [pickLater, hv]]
      exact ih a

/-- What folding `pickLater` from a seeded accumulator yields: either the
accumulator survives and dominates, or the first entry strictly beating every
earlier one (and the accumulator) is kept. -/
theorem pickLater_foldl_spec (l : List Change) :
    ∀ (acc c : Change), l.foldl pickLater (some acc) = some c →
      (c = acc ∧ ∀ x ∈ l, x.file.last_version ≤ acc.file.last_version) ∨
      (acc.file.last_version < c.file.last_version ∧
        ∃ l₁ l₂, l = l₁ ++ c :: l₂ ∧
          (∀ x ∈ l₁, x.file.last_version < c.file.last_version) ∧
          (∀ x ∈ l₂, x.file.last_version ≤ c.file.last_version)) := by
  induction l with
  | nil =>
    intro acc c h
    simp only [List.foldl_nil, Option.some.injEq] at h
    exact Or.inl ⟨h.symm, by simp⟩
  | cons x l ih =>
    intro acc c h
    rw [List.foldl_cons] at h
    by_cases hv : acc.file.last_version < x.file.last_version
    · rw [show pickLater (some acc) x = some x by simp [pickLater, hv]] at h
      rcases ih x c h with ⟨hc, hdom⟩ | ⟨hlt, l₁, l₂, hsplit, hbefore, hafter⟩
      · subst hc
        refine Or.inr ⟨hv, [], l, rfl, by simp, hdom⟩
      · refine Or.inr ⟨lt_trans hv hlt, x :: l₁, l₂, by rw [hsplit]; rfl, ?_, hafter⟩
        intro y hy
        rcases List.mem_cons.mp hy with hy | hy
        · subst hy; exact hlt
        · exact hbefore y hy
    · rw [show pickLater (some acc) x = some acc by simp [pickLater, hv]] at h
      rcases ih acc c h with ⟨hc, hdom⟩ | ⟨hlt, l₁, l₂, hsplit, hbefore, hafter⟩
      · subst hc
        refine Or.inl ⟨rfl, ?_⟩
        intro y hy
        rcases List.mem_cons.mp hy with hy | hy
        · subst hy; exact le_of_not_lt hv
        · exact hdom y hy
      · refine Or.inr ⟨hlt, x :: l₁, l₂, by rw [hsplit]; rfl, ?_, hafter⟩
        intro y hy
        rcases List.mem_cons.mp hy with hy | hy
        · subst hy; exact lt_of_le_of_lt (le_of_not_lt hv) hlt
        · exact hbefore y hy

theorem fileChangesStep_inv (m : List (Nat × Change)) (c : Change)
    (hnd : (keys m).Nodup) (hbind : ∀ p ∈ m, p.2.file.item_id = p.1) :
    (keys (fileChangesStep m c)).Nodup ∧
      ∀ p ∈ fileChangesStep m c, p.2.file.item_id = p.1 := by
  have hup : (keys (upsert m c.file.item_id c)).Nodup ∧
      ∀ p ∈ upsert m c.file.item_id c, p.2.file.item_id = p.1 := by
    refine ⟨nodup_keys_upsert m _ _ hnd, ?_⟩
    intro p hp
    rcases mem_upsert m _ _ p hp with h | h
    · subst h; rfl
    · exact hbind p h
  rcases hm : lookup m c.file.item_id with _ | prev
  · have hstep : fileChangesStep m c = upsert m c.file.item_id c := by
      unfold fileChangesStep
      rw [hm]
    rw [hstep]
    exact hup
  · have hstep : fileChangesStep m c =
        if prev.file.last_version < c.file.last_version then upsert m c.file.item_id c else m := by
      unfold fileChangesStep
      rw [hm]
    rw [hstep]
    by_cases hv : prev.file.last_version < c.file.last_version
    · rw [if_pos hv]; exact hup
    · rw [if_neg hv]; exact ⟨hnd, hbind⟩

theorem changedFilesMap_inv (commits : List Commit) :
    (keys (changedFilesMap commits)).Nodup ∧
      ∀ p ∈ changedFilesMap commits, p.2.file.item_id = p.1 := by
  rw [changedFilesMap]
  generalize changesOf commits = l
  have : ∀ (m : List (Nat × Change)), (keys m).Nodup →
      (∀ p ∈ m, p.2.file.item_id = p.1) →
      (keys (l.foldl fileChangesStep m)).Nodup ∧
        ∀ p ∈ l.foldl fileChangesStep m, p.2.file.item_id = p.1 := by
    induction l with
    | nil => intro m h1 h2; exact ⟨h1, h2⟩
    | cons c l ih =>
      intro m h1 h2
      rw [List.foldl_cons]
      obtain ⟨h1', h2'⟩ := fileChangesStep_inv m c h1 h2
      exact ih _ h1' h2'
  exact this [] (by simp [keys]) (by simp)

/-- C1: for every commit sequence, `file_changes` retains, for each file identity
named by any change in the sequence, exactly the change entry with the maximum
version number among all changes naming that identity, keeping the first-seen
entry when versions tie, comparing only version numbers and never the change
kind; the retained entries are partitioned by kind into the fetch list
(non-Deleted) and the delete list (Deleted), which are disjoint. -/
theorem file_changes_spec (commits : List Commit) :
    (∀ k c, lookup (changedFilesMap commits) k = some c →
        c.file.item_id = k ∧ c ∈ changesOf commits ∧
        (∀ c' ∈ changesOf commits, c'.file.item_id = k →
            c'.file.last_version ≤ c.file.last_version) ∧
        ∃ l₁ l₂,
          (changesOf commits).filter (fun x => x.file.item_id = k) = l₁ ++ c :: l₂ ∧
          ∀ c' ∈ l₁, c'.file.last_version < c.file.last_version) ∧
    (∀ c ∈ changesOf commits,
        ∃ e, lookup (changedFilesMap commits) c.file.item_id = some e) ∧
    (file_changes commits).1 =
      ((values (changedFilesMap commits)).filter
        (fun x => x.change_code ≠ ChangeCode.DELETED)).map Change.file ∧
    (file_changes commits).2 =
      ((values (changedFilesMap commits)).filter
        (fun x => x.change_code = ChangeCode.DELETED)).map Change.file ∧
    ∀ f, f ∈ (file_changes commits).1 → f ∉ (file_changes commits).2 := by
  obtain ⟨hnd, hbind⟩ := changedFilesMap_inv commits
  refine ⟨?_, ?_, rfl, rfl, ?_⟩
  · intro k c h
    rw [changedFilesMap, lookup_foldl_fileChangesStep] at h
    rcases hfil : (changesOf commits).filter (fun x => x.file.item_id = k) with _ | ⟨x, xs⟩
    · rw [hfil] at h
      simp [lookup] at h
    · rw [hfil] at h
      have hmemfil : ∀ y, y ∈ x :: xs → y ∈ changesOf commits ∧ y.file.item_id = k := by
        intro y hy
        rw [← hfil] at hy
        have := List.mem_filter.mp hy
        exact ⟨this.1, by simpa using this.2⟩
      have hfil' : ∀ y ∈ changesOf commits, y.file.item_id = k → y ∈ x :: xs := by
        intro y hy hyk
        rw [← hfil]
        exact List.mem_filter.mpr ⟨hy, by simpa using hyk⟩
      have hfold : xs.foldl pickLater (some x) = some c := by
        simpa [lookup, pickLater] using h
      rcases pickLater_foldl_spec xs x c hfold with
        ⟨hc, hdom⟩ | ⟨hlt, l₁, l₂, hsplit, hbefore, hafter⟩
      · subst hc
        obtain ⟨hcl, hck⟩ := hmemfil c (List.mem_cons_self _ _)
        refine ⟨hck, hcl, ?_, [], xs, by rw [hfil]; rfl, by simp⟩
        intro c' hc' hc'k
        rcases List.mem_cons.mp (hfil' c' hc' hc'k) with h1 | h1
        · exact le_of_eq (by rw [h1])
        · exact hdom c' h1
      · have hcxs : c ∈ xs := by
          rw [hsplit]
          exact List.mem_append.mpr (Or.inr (List.mem_cons_self _ _))
        obtain ⟨hcl, hck⟩ := hmemfil c (List.mem_cons_of_mem _ hcxs)
        refine ⟨hck, hcl, ?_, x :: l₁, l₂, by rw [hfil, hsplit]; rfl, ?_⟩
        · intro c' hc' hc'k
          rcases List.mem_cons.mp (hfil' c' hc' hc'k) with h1 | h1
          · rw [h1]; exact le_of_lt hlt
          · rw [hsplit] at h1
            rcases List.mem_append.mp h1 with h2 | h2
            · exact le_of_lt (hbefore c' h2)
            · rcases List.mem_cons.mp h2 with h3 | h3
              · exact le_of_eq (by rw [h3])
              · exact hafter c' h3
        · intro c' hc'
          rcases List.mem_cons.mp hc' with h1 | h1
          · rw [h1]; exact hlt
          · exact hbefore c' h1
  · intro c hc
    rw [changedFilesMap, lookup_foldl_fileChangesStep]
    have hmem : c ∈ (changesOf commits).filter (fun x => x.file.item_id = c.file.item_id) :=
      List.mem_filter.mpr ⟨hc, by simp⟩
    rcases hfil : (changesOf commits).filter (fun x => x.file.item_id = c.file.item_id)
        with _ | ⟨x, xs⟩
    · rw [hfil] at hmem
      simp at hmem
    · rw [hfil]
      have : xs.foldl pickLater (pickLater (lookup ([] : List (Nat × Change)) c.file.item_id) x) =
          xs.foldl pickLater (some x) := by
        simp [lookup, pickLater]
      rw [List.foldl_cons, this]
      exact pickLater_foldl_some xs x
  · intro f h1 h2
    simp only [file_changes] at h1 h2
    obtain ⟨c1, hc1mem, hc1f⟩ := List.mem_map.mp h1
    obtain ⟨c2, hc2mem, hc2f⟩ := List.mem_map.mp h2
    obtain ⟨hc1v, hc1p⟩ := List.mem_filter.mp hc1mem
    obtain ⟨hc2v, hc2p⟩ := List.mem_filter.mp hc2mem
    obtain ⟨p1, hp1, hp1v⟩ := List.mem_map.mp hc1v
    obtain ⟨p2, hp2, hp2v⟩ := List.mem_map.mp hc2v
    have hk1 : lookup (changedFilesMap commits) p1.1 = some p1.2 := by
      apply lookup_of_mem _ _ _ hnd
      rcases p1 with ⟨k1, v1⟩
      exact hp1
    have hk2 : lookup (changedFilesMap commits) p2.1 = some p2.2 := by
      apply lookup_of_mem _ _ _ hnd
      rcases p2 with ⟨k2, v2⟩
      exact hp2
    have hid : p1.1 = p2.1 := by
      rw [← hbind p1 hp1, ← hbind p2 hp2, hp1v, hp2v, hc1f, hc2f]
    rw [hid, hk2] at hk1
    have hceq : c1 = c2 := by
      have hv12 : p1.2 = p2.2 := (Option.some.inj hk1).symm
      rw [← hp1v, ← hp2v, hv12]
    rw [hceq] at hc1p
    simp only [decide_eq_true_eq] at hc1p hc2p
    exact hc1p hc2p

def c1FileA1 : FileShort :=
  { item_id := 1, filename := "a.txt", path := ["Root", "sub"], last_version := 1,
    last_update := 0 }

def c1FileA2 : FileShort :=
  { item_id := 1, filename := "a.txt", path := ["Root", "sub"], last_version := 2,
    last_update := 1 }

def c1FileB1 : FileShort :=
  { item_id := 2, filename := "b.txt", path := ["Root"], last_version := 1,
    last_update := 0 }

def c1Commit : Commit :=
  { commit_id := 10, name := "c", message := "m", created_at := 5,
    author := { user_id := 7, username := "u" },
    changes := [⟨c1FileA1, ChangeCode.ADDED⟩, ⟨c1FileA2, ChangeCode.UPDATED⟩,
                ⟨c1FileB1, ChangeCode.DELETED⟩] }

/-- Witness for C1: a concrete run, with the membership hypothesis of the
disjointness conjunct discharged by evaluation. -/
theorem file_changes_spec_witness : c1FileA2 ∉ (file_changes [c1Commit]).2 :=
  (file_changes_spec [c1Commit]).2.2.2.2 c1FileA2 (by decide)

/-! ## Generic dict-comprehension builder (used by `Filesystem.pull`) -/

/-- A Python dict comprehension `{key(x): val(x) for x in l if p x}` starting
from dict `m0`, in iteration order with last-write-wins. -/
def dictBuild {κ α β : Type} [DecidableEq κ] (key : β → κ) (val : β → α) (p : β → Bool)
    (l : List β) (m0 : List (κ × α)) : List (κ × α) :=
  l.foldl (fun m x => if p x then upsert m (key x) (val x) else m) m0

theorem lookup_dictBuild {κ α β : Type} [DecidableEq κ]
    (key : β → κ) (val : β → α) (p : β → Bool) (l : List β) :
    ∀ (m0 : List (κ × α)) (k : κ),
      lookup (dictBuild key val p l m0) k =
        match (l.filter (fun x => p x && decide (key x = k))).getLast? with
        | some x => some (val x)
        | none => lookup m0 k := by
  induction l with
  | nil => intro m0 k; rfl
  | cons x l ih =>
    intro m0 k
    have hstep : dictBuild key val p (x :: l) m0 =
        dictBuild key val p l (if p x then upsert m0 (key x) (val x) else m0) := rfl
    rw [hstep, ih, List.filter_cons]
    by_cases hpx : (p x && decide (key x = k)) = true
    · have hp : p x = true := ((Bool.and_eq_true _ _).mp hpx).1
      have hkx : key x = k := by
        have h2 := ((Bool.and_eq_true _ _).mp hpx).2
        simpa using h2
      rw [if_pos hpx]
      rcases hfl : l.filter (fun y => p y && decide (key y = k)) with _ | ⟨y, ys⟩
      · show lookup (if p x = true then upsert m0 (key x) (val x) else m0) k = some (val x)
        rw [if_pos hp, lookup_upsert, if_pos hkx]
      · rw [List.getLast?_cons_cons]
        rcases hgl : (y :: ys).getLast? with _ | z
        · simp at hgl
        · rfl
    · rw [if_neg hpx]
      rcases hfl : l.filter (fun y => p y && decide (key y = k)) with _ | ⟨y, ys⟩
      · show lookup (if p x = true then upsert m0 (key x) (val x) else m0) k = lookup m0 k
        by_cases hp : p x = true
        · have hkx : ¬ key x = k := fun hkk => hpx (by simp [hp, hkk])
          rw [if_pos hp, lookup_upsert, if_neg hkx]
        · rw [if_neg hp]
      · rcases hgl : (y :: ys).getLast? with _ | z
        · simp at hgl
        · rfl

theorem nodup_keys_dictBuild {κ α β : Type} [DecidableEq κ]
    (key : β → κ) (val : β → α) (p : β → Bool) (l : List β) :
    ∀ (m0 : List (κ × α)), (keys m0).Nodup → (keys (dictBuild key val p l m0)).Nodup := by
  induction l with
  | nil => intro m0 h; exact h
  | cons x l ih =>
    intro m0 h
    have hstep : dictBuild key val p (x :: l) m0 =
        dictBuild key val p l (if p x then upsert m0 (key x) (val x) else m0) := rfl
    rw [hstep]
    apply ih
    by_cases hp : p x = true
    · rw [if_pos hp]; exact nodup_keys_upsert _ _ _ h
    · rw [if_neg hp]; exact h

theorem mem_dictBuild {κ α β : Type} [DecidableEq κ]
    (key : β → κ) (val : β → α) (p : β → Bool) (l : List β) :
    ∀ (m0 : List (κ × α)) (q : κ × α), q ∈ dictBuild key val p l m0 →
      (∃ x ∈ l, p x = true ∧ q = (key x, val x)) ∨ q ∈ m0 := by
  induction l with
  | nil => intro m0 q h; exact Or.inr h
  | cons x l ih =>
    intro m0 q h
    have hstep : dictBuild key val p (x :: l) m0 =
        dictBuild key val p l (if p x then upsert m0 (key x) (val x) else m0) := rfl
    rw [hstep] at h
    rcases ih _ q h with ⟨y, hy, hpy, hq⟩ | hm
    · exact Or.inl ⟨y, List.mem_cons_of_mem _ hy, hpy, hq⟩
    · by_cases hp : p x = true
      · rw [if_pos hp] at hm
        rcases mem_upsert _ _ _ _ hm with hq | hq
        · exact Or.inl ⟨x, List.mem_cons_self _ _, hp, hq⟩
        · exact Or.inr hq
      · rw [if_neg hp] at hm
        exact Or.inr hm

/-! ## `Filesystem.pull` conflict resolution (`src/filesystem.py` lines 72-110) -/

/-- Remote `File` as fetched by `api.get_file_info` (`src/entities/files.py`). -/
structure File where
  item_id : Nat
  filename : String
  path : List String
  last_version : Nat
  last_update : Int
  version_list : List (Nat × String)
  root_directory : List String
  size : Nat
deriving DecidableEq

/-- `FileShort.path_without_root_folder`: drop the first path component. -/
def File.path_without_root_folder (f : File) : List String := f.path.drop 1

/-- `File.full_path`: `os.path.join(root_directory, path_without_root_folder, filename)`. -/
def File.full_path (f : File) : List String :=
  f.root_directory ++ f.path_without_root_folder ++ [f.filename]

/-- `LocalFileShort` (a `BaseNode` with digest and size). -/
structure LocalFileShort where
  filename : String
  path : List String
  digest : String
  size : Nat
deriving DecidableEq

/-- `BaseNode.full_path`: `os.path.join(path, filename)`. -/
def LocalFileShort.full_path (f : LocalFileShort) : List String := f.path ++ [f.filename]

/-- The `overwriting_changes` dict of `pull`: remote updates whose filename is a
key of `local_changes`, keyed by filename. -/
def overwriting_changes (remote_update : List File)
    (local_changes : List (String × LocalFileShort)) : List (String × File) :=
  dictBuild File.filename id (fun f => (lookup local_changes f.filename).isSome)
    remote_update []

/-- The `files_to_download` list comprehension of `pull`; `np` models
`os.path.normpath`. -/
def files_to_download (np : List String → List String)
    (remote_update : List File) (local_changes : List (String × LocalFileShort))
    (force : Bool) : List File :=
  remote_update.filter (fun f =>
    force ||
      !(match lookup (overwriting_changes remote_update local_changes) f.filename with
        | some g => decide (np f.full_path = np g.full_path)
        | none => false))

/-- The `not_downloaded` result of `pull` (its returned held-back list). -/
def not_downloaded (remote_update : List File)
    (local_changes : List (String × LocalFileShort)) (force : Bool) : List File :=
  if force then [] else values (overwriting_changes remote_update local_changes)

theorem lookup_overwriting (remote_update : List File)
    (local_changes : List (String × LocalFileShort)) (k : String) :
    lookup (overwriting_changes remote_update local_changes) k =
      if (lookup local_changes k).isSome = true
      then (remote_update.filter (fun g => decide (g.filename = k))).getLast?
      else none := by
  rw [overwriting_changes, lookup_dictBuild]
  by_cases hk : (lookup local_changes k).isSome = true
  · rw [if_pos hk]
    have hfeq : remote_update.filter
          (fun x => (lookup local_changes x.filename).isSome && decide (x.filename = k)) =
        remote_update.filter (fun x => decide (x.filename = k)) := by
      apply List.filter_congr
      intro x _
      by_cases hx : x.filename = k
      · simp [hx, hk]
      · simp [hx]
    rw [hfeq]
    rcases hgl : (remote_update.filter (fun g => decide (g.filename = k))).getLast? with _ | g
    · rw [hgl]
      rfl
    · rw [hgl]
      rfl
  · rw [if_neg hk]
    have hb : (lookup local_changes k).isSome = false := by
      simpa using hk
    have hfeq : remote_update.filter
          (fun x => (lookup local_changes x.filename).isSome && decide (x.filename = k)) =
        remote_update.filter (fun _ => false) := by
      apply List.filter_congr
      intro x _
      by_cases hx : x.filename = k
      · simp [hx, hb]
      · simp [hx]
    rw [hfeq, List.filter_false]
    rfl

theorem overwriting_inv (remote_update : List File)
    (local_changes : List (String × LocalFileShort)) :
    (keys (overwriting_changes remote_update local_changes)).Nodup ∧
      ∀ q ∈ overwriting_changes remote_update local_changes, q.2.filename = q.1 := by
  constructor
  · exact nodup_keys_dictBuild _ _ _ _ [] (by simp [keys])
  · intro q hq
    rcases mem_dictBuild _ _ _ _ [] q hq with ⟨x, _, _, hqx⟩ | hq0
    · subst hqx; rfl
    · simp at hq0

def c2Remote : File :=
  { item_id := 5, filename := "a.txt", path := ["Root", "y"], last_version := 3,
    last_update := 0, version_list := [(3, "u")], root_directory := ["r"], size := 10 }

def c2Local : LocalFileShort :=
  { filename := "a.txt", path := ["r", "x"], digest := "d", size := 4 }

/-- C2 counterexample: under `force = false`, a remote update whose filename
matches a locally-modified file but whose full target path differs from that
local file's full path is still excluded from the download list and returned as
held back (the code compares the remote path against the remote entry stored in
`overwriting_changes`, never against the local file's path), contradicting the
claimed conflict rule, which would download it and hold nothing back. -/
theorem pull_resolve_cex :
    files_to_download id [c2Remote] [("a.txt", c2Local)] false = [] ∧
    not_downloaded [c2Remote] [("a.txt", c2Local)] false = [c2Remote] ∧
    c2Remote.full_path ≠ c2Local.full_path ∧
    c2Remote.filename = c2Local.filename := by
  refine ⟨?_, ?_, ?_, rfl⟩
  · decide
  · decide
  · decide

/-- C2 amended: with `force = true` every remote update is downloaded and the
held-back list is empty; with `force = false` a remote update is excluded from
the download list exactly when its filename is a key of the locally-modified
mapping and its normalized full path equals the normalized full path of the
last remote update carrying that filename (for a filename occurring once this
is a self-comparison, so such an update is always excluded); the held-back list
contains exactly, for each filename of a remote update that is a key of the
locally-modified mapping, the last remote update carrying that filename.
The comparison never consults the locally-modified file's own path. -/
theorem pull_resolve_spec (np : List String → List String)
    (remote_update : List File) (local_changes : List (String × LocalFileShort)) :
    (files_to_download np remote_update local_changes true = remote_update ∧
      not_downloaded remote_update local_changes true = []) ∧
    files_to_download np remote_update local_changes false =
      remote_update.filter (fun f =>
        !((lookup local_changes f.filename).isSome &&
          match (remote_update.filter (fun g => decide (g.filename = f.filename))).getLast? with
          | some g => decide (np f.full_path = np g.full_path)
          | none => false)) ∧
    ∀ g, g ∈ not_downloaded remote_update local_changes false ↔
      ((lookup local_changes g.filename).isSome = true ∧
        (remote_update.filter (fun h => decide (h.filename = g.filename))).getLast? = some g) := by
  obtain ⟨hnd, hbind⟩ := overwriting_inv remote_update local_changes
  refine ⟨⟨?_, rfl⟩, ?_, ?_⟩
  · rw [files_to_download]
    have : ∀ f ∈ remote_update,
        (true ||
          !(match lookup (overwriting_changes remote_update local_changes) f.filename with
            | some g => decide (np f.full_path = np g.full_path)
            | none => false)) = (fun _ : File => true) f := by
      intro f _
      simp
    rw [List.filter_congr this, List.filter_true]
  · rw [files_to_download]
    apply List.filter_congr
    intro f _
    rw [lookup_overwriting]
    by_cases hk : (lookup local_changes f.filename).isSome = true
    · rw [if_pos hk, hk]
      rcases hgl : (remote_update.filter
          (fun g => decide (g.filename = f.filename))).getLast? with _ | g
      · rw [hgl]
        rfl
      · rw [hgl]
        rfl
    · rw [if_neg hk]
      have hb : (lookup local_changes f.filename).isSome = false := by simpa using hk
      rw [hb]
      rfl
  · intro g
    rw [not_downloaded, if_neg (by simp)]
    constructor
    · intro hg
      obtain ⟨q, hq, hqg⟩ := List.mem_map.mp hg
      have hq1 : q.1 = g.filename := by
        rw [← hbind q hq, hqg]
      have hlk : lookup (overwriting_changes remote_update local_changes) g.filename = some g := by
        have := lookup_of_mem _ q.1 q.2 hnd (by rcases q with ⟨a, b⟩; exact hq)
        rw [hq1, hqg] at this
        exact this
      rw [lookup_overwriting] at hlk
      by_cases hk : (lookup local_changes g.filename).isSome = true
      · rw [if_pos hk] at hlk
        exact ⟨hk, hlk⟩
      · rw [if_neg hk] at hlk
        exact absurd hlk (by simp)
    · rintro ⟨hk, hgl⟩
      have hlk : lookup (overwriting_changes remote_update local_changes) g.filename = some g := by
        rw [lookup_overwriting, if_pos hk]
        exact hgl
      have hmem := mem_of_lookup _ _ _ hlk
      exact List.mem_map.mpr ⟨(g.filename, g), hmem, rfl⟩

/-- Witness for C2: the amended characterization evaluated on the
counterexample inputs under `force = true`. -/
theorem pull_resolve_spec_witness :
    files_to_download id [c2Remote] [("a.txt", c2Local)] true = [c2Remote] :=
  (pull_resolve_spec id [c2Remote] [("a.txt", c2Local)]).1.1

/-! ## `Filesystem.pull` local-modification detection (`src/filesystem.py` lines 51-75) -/

theorem mem_keys_upsert {κ α : Type} [DecidableEq κ] (m : List (κ × α)) (k k' : κ) (v : α) :
    k' ∈ keys (upsert m k v) ↔ k' ∈ keys m ∨ k' = k := by
  rw [keys_upsert]
  by_cases hk : k ∈ keys m
  · rw [if_pos hk]
    constructor
    · exact Or.inl
    · rintro (h | h)
      · exact h
      · rw [h]; exact hk
  · rw [if_neg hk]
    simp

theorem mem_keys_dictBuild {κ α β : Type} [DecidableEq κ]
    (key : β → κ) (val : β → α) (p : β → Bool) (l : List β) :
    ∀ (m0 : List (κ × α)) (k : κ),
      k ∈ keys (dictBuild key val p l m0) ↔
        k ∈ keys m0 ∨ ∃ x ∈ l, p x = true ∧ key x = k := by
  induction l with
  | nil => intro m0 k; simp [dictBuild]
  | cons x l ih =>
    intro m0 k
    have hstep : dictBuild key val p (x :: l) m0 =
        dictBuild key val p l (if p x then upsert m0 (key x) (val x) else m0) := rfl
    rw [hstep, ih]
    by_cases hp : p x = true
    · rw [if_pos hp, mem_keys_upsert]
      constructor
      · rintro ((h | h) | ⟨y, hy, hpy, hky⟩)
        · exact Or.inl h
        · exact Or.inr ⟨x, List.mem_cons_self _ _, hp, h.symm⟩
        · exact Or.inr ⟨y, List.mem_cons_of_mem _ hy, hpy, hky⟩
      · rintro (h | ⟨y, hy, hpy, hky⟩)
        · exact Or.inl (Or.inl h)
        · rcases List.mem_cons.mp hy with hyx | hyl
          · subst hyx
            exact Or.inl (Or.inr hky.symm)
          · exact Or.inr ⟨y, hyl, hpy, hky⟩
    · rw [if_neg hp]
      constructor
      · rintro (h | ⟨y, hy, hpy, hky⟩)
        · exact Or.inl h
        · exact Or.inr ⟨y, List.mem_cons_of_mem _ hy, hpy, hky⟩
      · rintro (h | ⟨y, hy, hpy, hky⟩)
        · exact Or.inl h
        · rcases List.mem_cons.mp hy with hyx | hyl
          · subst hyx
            exact absurd hpy hp
          · exact Or.inr ⟨y, hyl, hpy, hky⟩

theorem upsert_append {κ α : Type} [DecidableEq κ] (m : List (κ × α)) (k : κ) (v : α)
    (hk : k ∉ keys m) : upsert m k v = m ++ [(k, v)] := by
  induction m with
  | nil => rfl
  | cons p rest ih =>
    obtain ⟨pk, pv⟩ := p
    simp only [keys, List.map_cons, List.mem_cons] at hk
    push_neg at hk
    have hne : pk ≠ k := fun h => hk.1 h.symm
    rw [upsert, if_neg hne, ih (by simpa [keys] using hk.2)]
    rfl

theorem dictBuild_append {κ α β : Type} [DecidableEq κ]
    (key : β → κ) (val : β → α) (p : β → Bool) (l : List β) :
    ∀ (m0 : List (κ × α)), (∀ x ∈ l, p x = true) → (∀ x ∈ l, key x ∉ keys m0) →
      (l.map key).Nodup →
      dictBuild key val p l m0 = m0 ++ l.map (fun x => (key x, val x)) := by
  induction l with
  | nil => intro m0 _ _ _; simp [dictBuild]
  | cons x l ih =>
    intro m0 hall hfresh hnd
    have hstep : dictBuild key val p (x :: l) m0 =
        dictBuild key val p l (if p x then upsert m0 (key x) (val x) else m0) := rfl
    have hpx : p x = true := hall x (List.mem_cons_self _ _)
    have hkx : key x ∉ keys m0 := hfresh x (List.mem_cons_self _ _)
    rw [hstep, if_pos hpx, upsert_append m0 _ _ hkx]
    simp only [List.map_cons, List.nodup_cons] at hnd
    rw [ih (m0 ++ [(key x, val x)]) (fun y hy => hall y (List.mem_cons_of_mem _ hy)) ?_ hnd.2]
    · simp [List.append_assoc]
    · intro y hy
      have h1 : key y ∉ keys m0 := hfresh y (List.mem_cons_of_mem _ hy)
      have h2 : key y ≠ key x := by
        intro he
        exact hnd.1 (he ▸ List.mem_map.mpr ⟨y, hy, rfl⟩)
      intro hc
      rw [keys, List.map_append] at hc
      rcases List.mem_append.mp hc with hc | hc
      · exact h1 hc
      · simp only [List.map_cons, List.map_nil, List.mem_singleton] at hc
        exact h2 hc

/-- The `local_files` dict of `pull`: on-disk files keyed by digest. -/
def local_files_map (disk : List LocalFileShort) : List (String × LocalFileShort) :=
  dictBuild LocalFileShort.digest id (fun _ => true) disk []

/-- The `local_committed_files` dict of `pull`: the baseline (the fetch half of
`file_changes` over the ledger's own commits) keyed by digest. -/
def local_committed_map (base : List LocalFileShort) : List (String × LocalFileShort) :=
  dictBuild LocalFileShort.digest id (fun _ => true) base []

/-- The `local_changes` dict of `pull`: entries of `local_files` whose digest key
is absent from `local_committed_files`, re-keyed by filename. -/
def local_changes_model (disk base : List LocalFileShort) : List (String × LocalFileShort) :=
  dictBuild (fun p : String × LocalFileShort => p.2.filename) (fun p => p.2)
    (fun _ => true)
    ((local_files_map disk).filter
      (fun p => !(lookup (local_committed_map base) p.1).isSome))
    []

theorem lookup_committed_isSome (base : List LocalFileShort) (d : String) :
    (lookup (local_committed_map base) d).isSome = true ↔
      d ∈ base.map LocalFileShort.digest := by
  rw [lookup_isSome_iff, local_committed_map, mem_keys_dictBuild]
  simp [keys, List.mem_map]

def c3FileA : LocalFileShort :=
  { filename := "a.txt", path := ["r"], digest := "X", size := 1 }

def c3FileB : LocalFileShort :=
  { filename := "b.txt", path := ["r"], digest := "X", size := 1 }

/-- C3 counterexample: two on-disk files with the same content digest collapse in
the digest-keyed `local_files` dict (last wins), so a disk file whose digest is
absent from the baseline digests can be entirely absent from the
locally-modified mapping, contradicting the claimed exactness. -/
theorem local_changes_cex :
    local_changes_model [c3FileA, c3FileB] [] = [("b.txt", c3FileB)] ∧
    c3FileA ∈ [c3FileA, c3FileB] ∧
    c3FileA.digest ∉ ([] : List LocalFileShort).map LocalFileShort.digest ∧
    ("a.txt", c3FileA) ∉ local_changes_model [c3FileA, c3FileB] [] ∧
    c3FileA ∉ values (local_changes_model [c3FileA, c3FileB] []) := by
  refine ⟨by decide, by decide, by decide, by decide, by decide⟩

/-- C3 amended: every entry of the locally-modified mapping is an on-disk file
whose digest is absent from the baseline digests, keyed by its filename
(membership is decided by digest, never by filename); when every disk digest is
present in the baseline the mapping is empty; and under the additional
hypothesis that disk digests and disk filenames are pairwise distinct the
mapping contains exactly those disk files whose digest is not among the
baseline digests. -/
theorem local_changes_spec (disk base : List LocalFileShort) :
    (∀ fn f, (fn, f) ∈ local_changes_model disk base →
        f ∈ disk ∧ f.digest ∉ base.map LocalFileShort.digest ∧ fn = f.filename) ∧
    ((∀ f ∈ disk, f.digest ∈ base.map LocalFileShort.digest) →
        local_changes_model disk base = []) ∧
    ((disk.map LocalFileShort.digest).Nodup →
      (disk.map LocalFileShort.filename).Nodup →
      ∀ fn f, (fn, f) ∈ local_changes_model disk base ↔
        (f ∈ disk ∧ f.digest ∉ base.map LocalFileShort.digest ∧ fn = f.filename)) := by
  refine ⟨?_, ?_, ?_⟩
  · intro fn f h
    rcases mem_dictBuild _ _ _ _ [] (fn, f) h with ⟨q, hq, _, heq⟩ | h0
    · obtain ⟨hq1, hq2⟩ := List.mem_filter.mp hq
      rcases mem_dictBuild _ _ _ _ [] q hq1 with ⟨x, hx, _, hqx⟩ | h1
      · rw [Prod.mk.injEq] at heq
        rw [hqx] at heq
        have hf : f = x := by simpa using heq.2
        have hfn' : fn = x.filename := by simpa using heq.1
        refine ⟨hf ▸ hx, ?_, by rw [hf, hfn']⟩
        rw [hf]
        intro hd
        have := (lookup_committed_isSome base x.digest).mpr hd
        rw [hqx] at hq2
        simp only [Bool.not_eq_true'] at hq2
        rw [this] at hq2
        cases hq2
      · simp at h1
    · simp at h0
  · intro hall
    rw [local_changes_model]
    have hfil : (local_files_map disk).filter
        (fun p => !(lookup (local_committed_map base) p.1).isSome) = [] := by
      apply List.filter_eq_nil_iff.mpr
      intro q hq
      rcases mem_dictBuild _ _ _ _ [] q hq with ⟨x, hx, _, hqx⟩ | h1
      · have : (lookup (local_committed_map base) x.digest).isSome = true :=
          (lookup_committed_isSome base x.digest).mpr (hall x hx)
        rw [hqx]
        simp [this]
      · simp at h1
    rw [hfil]
    rfl
  · intro hdig hfn fn f
    have hlf : local_files_map disk = disk.map (fun x => (x.digest, x)) := by
      rw [local_files_map,
        dictBuild_append _ _ _ _ [] (fun _ _ => rfl) (by intro x _; simp [keys]) hdig]
      rfl
    have hmodel : local_changes_model disk base =
        (disk.filter
          (fun x => !(lookup (local_committed_map base) x.digest).isSome)).map
          (fun x => (x.filename, x)) := by
      rw [local_changes_model, hlf, List.filter_map,
        dictBuild_append _ _ _ _ [] (fun _ _ => rfl) (by intro q _; simp [keys]) ?_]
      · rw [List.nil_append, List.map_map]
        rfl
      · rw [List.map_map]
        exact hfn.sublist ((List.filter_sublist _).map _)
    rw [hmodel]
    constructor
    · intro h
      obtain ⟨x, hx, hxe⟩ := List.mem_map.mp h
      obtain ⟨hx1, hx2⟩ := List.mem_filter.mp hx
      rw [Prod.mk.injEq] at hxe
      refine ⟨hxe.2 ▸ hx1, ?_, by rw [← hxe.2, ← hxe.1]⟩
      rw [← hxe.2]
      intro hd
      have := (lookup_committed_isSome base x.digest).mpr hd
      simp only [Bool.not_eq_true'] at hx2
      rw [this] at hx2
      cases hx2
    · rintro ⟨hf, hd, hfn'⟩
      apply List.mem_map.mpr
      refine ⟨f, List.mem_filter.mpr ⟨hf, ?_⟩, by rw [hfn']⟩
      simp only [Bool.not_eq_true']
      rcases hs : (lookup (local_committed_map base) f.digest).isSome with _ | _
      · rfl
      · exact absurd ((lookup_committed_isSome base f.digest).mp hs) hd

/-- Witness for C3: the exactness direction of the amended statement applied at
concrete inputs with all hypotheses discharged by evaluation. -/
theorem local_changes_spec_witness :
    ("a.txt", c3FileA) ∈ local_changes_model [c3FileA] [] :=
  (((local_changes_spec [c3FileA] []).2.2 (by decide) (by decide)
    "a.txt" c3FileA).mpr (by decide))

/-! ## `GrabCadAPI.get_project_tree` (`src/api.py` lines 324-354) -/

/-- What `Triplet.get` resolves a child reference to: a leaf `File`, or a
`Folder` together with its own child references. -/
inductive NodeInfo where
  | fileNode
  | folderNode (children : List Nat)
deriving DecidableEq

/-- `parent.children.append(node)` of `fetch_children`, on an attachment map
from folder id to attached children ids. -/
def attachChild (att : List (Nat × List Nat)) (parent child : Nat) :
    List (Nat × List Nat) :=
  match lookup att parent with
  | some cs => upsert att parent (cs ++ [child])
  | none => upsert att parent [child]

/-- One BFS level of `get_project_tree`: resolve every `(parent, child)` pair of
the frontier; a resolved `File` is attached to its parent, a resolved folder's
children are enqueued for the next level paired with the folder itself — the
folder node itself is never attached to its own parent. -/
def bfsRound (env : Nat → Option NodeInfo) (frontier : List (Nat × Nat))
    (att : List (Nat × List Nat)) : List (Nat × Nat) × List (Nat × List Nat) :=
  frontier.foldl
    (fun acc pc =>
      match env pc.2 with
      | some NodeInfo.fileNode => (acc.1, attachChild acc.2 pc.1 pc.2)
      | some (NodeInfo.folderNode ch) => (acc.1 ++ ch.map (fun c => (pc.2, c)), acc.2)
      | none => acc)
    ([], att)

/-- The `while to_visit` loop of `get_project_tree`; returns the number of
fan-out rounds performed and the final attachment map. -/
def bfsWalk (env : Nat → Option NodeInfo) :
    Nat → List (Nat × Nat) → List (Nat × List Nat) → Nat × List (Nat × List Nat)
  | 0, _, att => (0, att)
  | Nat.succ fuel, frontier, att =>
      if frontier.isEmpty then (0, att)
      else
        let r := bfsRound env frontier att
        let w := bfsWalk env fuel r.1 r.2
        (w.1 + 1, w.2)

/-- `get_project_tree`: resolve the root folder, seed the frontier with its
children paired with the root, and run the BFS loop. -/
def get_project_tree (env : Nat → Option NodeInfo) (fuel rootId : Nat) :
    Option (Nat × List (Nat × List Nat)) :=
  match env rootId with
  | some (NodeInfo.folderNode ch) =>
      some (bfsWalk env fuel (ch.map (fun c => (rootId, c))) [])
  | _ => none

/-- Number of nodes of the tree handed back to the caller: the node itself plus
everything reachable through the attachment map. -/
def attachedCount (att : List (Nat × List Nat)) : Nat → Nat → Nat
  | 0, _ => 1
  | Nat.succ fuel, n =>
      1 + ((lookup att n).getD []).foldl (fun s c => s + attachedCount att fuel c) 0

/-- Total number of nodes of the remote tree reachable from a node. -/
def envCount (env : Nat → Option NodeInfo) : Nat → Nat → Nat
  | 0, _ => 1
  | Nat.succ fuel, n =>
      match env n with
      | some (NodeInfo.folderNode ch) => 1 + (ch.map (envCount env fuel)).sum
      | _ => 1

/-- Remote tree for C4: root folder 0 contains folder 1, which contains
file 2 — depth 2, 3 nodes in total. -/
def c4Env : Nat → Option NodeInfo := fun n =>
  if n = 0 then some (NodeInfo.folderNode [1])
  else if n = 1 then some (NodeInfo.folderNode [2])
  else if n = 2 then some NodeInfo.fileNode
  else none

/-- C4: on the three-node remote tree root 0 → folder 1 → file 2, the walk
performs its two fan-out rounds and terminates, but only the leaf file 2 is
attached (to the unreachable folder object 1); folder 1 is never attached to
the root's children, so the tree returned to the caller has 1 reachable node
while the remote tree has 3 — the returned tree is not structurally
complete. -/
theorem get_project_tree_incomplete :
    get_project_tree c4Env 10 0 = some (2, [(1, [2])]) ∧
    envCount c4Env 10 0 = 3 ∧
    attachedCount [(1, [2])] 10 0 = 1 ∧
    lookup [(1, [2])] 0 = none := by
  refine ⟨by decide, by decide, by decide, by decide⟩

/-! ## Download batching in `Filesystem.pull` (`src/filesystem.py` lines 87-96) -/

/-- The `batches` list comprehension of `pull`:
`[files[x:x + batch_size] for x in range(0, len(files), batch_size)]`.
Python `range` with step 0 raises, so the model is only used with a
positive `batch_size`. -/
def batches {α : Type} (files : List α) (batch_size : Nat) : List (List α) :=
  if h : files.isEmpty ∨ batch_size = 0 then []
  else
    files.take batch_size :: batches (files.drop batch_size) batch_size
termination_by files.length
decreasing_by
  simp only [not_or] at h
  obtain ⟨h1, h2⟩ := h
  have h3 : files ≠ [] := by
    intro he
    exact h1 (by rw [he]; rfl)
  have h4 : 0 < files.length := List.length_pos.mpr h3
  simp only [List.length_drop]
  omega

theorem batches_spec_aux {α : Type} (b : Nat) (hb : 0 < b) :
    ∀ (n : Nat) (files : List α), files.length ≤ n →
      (batches files b).length = (files.length + b - 1) / b ∧
      (batches files b).flatten = files ∧
      ∀ batch ∈ batches files b, batch.length ≤ b := by
  have hdiv0 : (b - 1) / b = 0 := Nat.div_eq_of_lt (by omega)
  intro n
  induction n with
  | zero =>
    intro files hf
    have hnil : files = [] := List.length_eq_zero.mp (Nat.le_zero.mp hf)
    subst hnil
    rw [batches, dif_pos (show ([] : List α).isEmpty = true ∨ b = 0 from Or.inl rfl)]
    refine ⟨?_, rfl, by simp⟩
    simp [hdiv0]
  | succ n ih =>
    intro files hf
    rcases hfe : files with _ | ⟨x, xs⟩
    · rw [batches, dif_pos (show ([] : List α).isEmpty = true ∨ b = 0 from Or.inl rfl)]
      refine ⟨?_, rfl, by simp⟩
      simp [hdiv0]
    · rw [← hfe]
      have hne : files.isEmpty = false := by rw [hfe]; rfl
      have hcond : ¬(files.isEmpty = true ∨ b = 0) := by
        intro hor
        rcases hor with h1 | h1
        · rw [hne] at h1
          cases h1
        · omega
      rw [batches, dif_neg hcond]
      have hlen : (files.drop b).length ≤ n := by
        rw [List.length_drop, hfe]
        rw [hfe] at hf
        simp only [List.length_cons] at hf ⊢
        omega
      obtain ⟨ihl, ihj, ihb⟩ := ih (files.drop b) hlen
      have hflen : 0 < files.length := by rw [hfe]; simp
      refine ⟨?_, ?_, ?_⟩
      · simp only [List.length_cons, ihl, List.length_drop]
        rcases Nat.lt_or_ge files.length (b + 1) with hcase | hcase
        · have h1 : files.length - b = 0 := by omega
          rw [h1]
          have h2 : (0 + b - 1) / b = 0 := Nat.div_eq_of_lt (by omega)
          rw [h2]
          have h3 : files.length + b - 1 = files.length - 1 + b := by omega
          rw [h3, Nat.add_div_right _ hb]
          have h4 : (files.length - 1) / b = 0 := Nat.div_eq_of_lt (by omega)
          omega
        · have h1 : files.length - b + b - 1 = files.length - 1 := by omega
          rw [h1]
          have h2 : files.length + b - 1 = files.length - 1 + b := by omega
          rw [h2, Nat.add_div_right _ hb]
      · simp only [List.flatten_cons, ihj, List.take_append_drop]
      · intro batch hbatch
        rcases List.mem_cons.mp hbatch with h1 | h1
        · rw [h1]
          simpa using List.length_take_le b files
        · exact ihb batch h1

/-- C5: for every download list and every positive batch size, `pull`
partitions the list into `ceil(m/b)` consecutive batches whose concatenation
is the original list (order preserved), none exceeding `b` entries; the
batches are issued sequentially in list order (the `for batch in batches`
loop awaits each batch's downloads before starting the next). -/
theorem batches_spec {α : Type} (files : List α) (b : Nat) (hb : 0 < b) :
    (batches files b).length = (files.length + b - 1) / b ∧
    (batches files b).flatten = files ∧
    ∀ batch ∈ batches files b, batch.length ≤ b :=
  batches_spec_aux b hb files.length files le_rfl

/-- Witness for C5: seven files in batches of three give three batches of
sizes 3, 3, 1 concatenating to the input. -/
theorem batches_spec_witness :
    (batches [1, 2, 3, 4, 5, 6, 7] 3).length = (7 + 3 - 1) / 3 ∧
    (batches [1, 2, 3, 4, 5, 6, 7] 3).flatten = [1, 2, 3, 4, 5, 6, 7] ∧
    ∀ batch ∈ batches [1, 2, 3, 4, 5, 6, 7] 3, batch.length ≤ 3 :=
  batches_spec [1, 2, 3, 4, 5, 6, 7] 3 (by decide)

/-! ## `DigestNode` (`src/entities/files.py` lines 179-204) -/

/-- An on-disk filesystem entry: a regular file with its byte content, or a
directory with the size the OS reports for it. -/
inductive FsEntry where
  | fileEntry (content : List Nat)
  | dirEntry (dirSize : Nat)
deriving DecidableEq

/-- `os.path.isfile`. -/
def isRegularFile : Option FsEntry → Bool
  | some (FsEntry.fileEntry _) => true
  | _ => false

/-- `DigestNode._file_digest`: the md5 hex digest of the file's bytes, or the
empty string when the path is not a regular file. -/
def file_digest (md5hex : List Nat → String) (fs : List String → Option FsEntry)
    (p : List String) : String :=
  match fs p with
  | some (FsEntry.fileEntry content) => md5hex content
  | _ => ""

/-- `os.path.getsize`: the byte length of a regular file, the reported size of
a directory, and `FileNotFoundError` (`none`) for a missing path. -/
def getsize (fs : List String → Option FsEntry) (p : List String) : Option Nat :=
  match fs p with
  | some (FsEntry.fileEntry content) => some content.length
  | some (FsEntry.dirEntry s) => some s
  | none => none

/-- `DigestNode.__post_init__`: digest plus size, with `FileNotFoundError`
caught and turned into size 0. -/
def digest_node (md5hex : List Nat → String) (fs : List String → Option FsEntry)
    (p : List String) : String × Nat :=
  (file_digest md5hex fs p, (getsize fs p).getD 0)

/-- Filesystem for C8: the path `d` is a directory of reported size 4096;
everything else is missing. -/
def c8Fs : List String → Option FsEntry := fun p =>
  if p = ["d"] then some (FsEntry.dirEntry 4096) else none

/-- C8 counterexample: a directory path does not exist as a regular file, and
digest computation does return the empty digest for it, but the recorded size
is what `os.path.getsize` reports for the directory (4096 here), not 0 —
`getsize` raises only for missing paths. -/
theorem digest_node_cex :
    isRegularFile (c8Fs ["d"]) = false ∧
    digest_node (fun _ => "h") c8Fs ["d"] = ("", 4096) := by
  refine ⟨by decide, by decide⟩

/-- C8 amended: digest computation on a missing path returns the empty digest
and records size 0 instead of raising; on any path that exists but is not a
regular file (a directory) the digest is still empty but the size recorded is
the size the OS reports; and an empty digest never matches a baseline whose
digests are all nonempty. -/
theorem digest_node_spec (md5hex : List Nat → String) (fs : List String → Option FsEntry)
    (p : List String) (digests : List String) :
    (fs p = none → digest_node md5hex fs p = ("", 0)) ∧
    (isRegularFile (fs p) = false → (digest_node md5hex fs p).1 = "") ∧
    ((∀ d ∈ digests, d ≠ "") → fs p = none →
      (digest_node md5hex fs p).1 ∉ digests) := by
  have hfd : isRegularFile (fs p) = false → (digest_node md5hex fs p).1 = "" := by
    intro h
    rcases hfs : fs p with _ | e
    · simp [digest_node, file_digest, hfs]
    · rcases e with content | ds
      · rw [hfs] at h
        simp [isRegularFile] at h
      · simp [digest_node, file_digest, hfs]
  refine ⟨?_, hfd, ?_⟩
  · intro h
    simp [digest_node, file_digest, getsize, h]
  · intro hd h hmem
    have h1 : (digest_node md5hex fs p).1 = "" := hfd (by rw [h]; rfl)
    rw [h1] at hmem
    exact hd "" hmem rfl

/-- Witness for C8: the amended statement evaluated at a missing path. -/
theorem digest_node_spec_witness :
    digest_node (fun _ => "h") c8Fs ["x"] = ("", 0) :=
  (digest_node_spec (fun _ => "h") c8Fs ["x"] []).1 (by decide)

/-! ## Commit mutation and ledger append in `Filesystem.pull`
(`src/filesystem.py` lines 98-105, `src/state.py`) -/

/-- `LocalFile` (`src/entities/files.py`): `DigestNode` + `File` fields. -/
structure LocalFile where
  item_id : Nat
  filename : String
  path : List String
  last_version : Nat
  last_update : Int
  version_list : List (Nat × String)
  root_directory : List String
  digest : String
  size : Nat
deriving DecidableEq

/-- `change.file = LocalFile(**dataclasses.asdict(change.file), version_list={},
root_directory=self.api.root_folder)`: base fields copied, version list
emptied, root directory set, digest and size recomputed from disk by
`DigestNode.__post_init__` at `File.full_path`. -/
def toLocalFile (root : List String) (md5hex : List Nat → String)
    (fs : List String → Option FsEntry) (f : FileShort) : LocalFile :=
  { item_id := f.item_id, filename := f.filename, path := f.path,
    last_version := f.last_version, last_update := f.last_update,
    version_list := [], root_directory := root,
    digest := (digest_node md5hex fs (root ++ f.path.drop 1 ++ [f.filename])).1,
    size := (digest_node md5hex fs (root ++ f.path.drop 1 ++ [f.filename])).2 }

structure ChangePost where
  file : LocalFile
  change_code : ChangeCode
deriving DecidableEq

structure CommitPost where
  commit_id : Nat
  name : String
  message : String
  created_at : Int
  author : User
  changes : List ChangePost
deriving DecidableEq

/-- What the in-place update of `commit.changes` does to one commit. -/
def transformCommit (root : List String) (md5hex : List Nat → String)
    (fs : List String → Option FsEntry) (c : Commit) : CommitPost :=
  { commit_id := c.commit_id, name := c.name, message := c.message,
    created_at := c.created_at, author := c.author,
    changes := c.changes.map
      (fun ch => ⟨toLocalFile root md5hex fs ch.file, ch.change_code⟩) }

def commitLE (a b : CommitPost) : Prop := a.created_at ≤ b.created_at

instance : DecidableRel commitLE :=
  fun a b => inferInstanceAs (Decidable (a.created_at ≤ b.created_at))

/-- Lines 98-104 of `pull`: replace each change's file by a `LocalFile` and
sort the caller's commit list in place by creation time (`commits.sort`); the
value is the caller's list after the call. -/
def pullCommitsPost (root : List String) (md5hex : List Nat → String)
    (fs : List String → Option FsEntry) (commits : List Commit) : List CommitPost :=
  List.insertionSort commitLE (commits.map (transformCommit root md5hex fs))

/-- Line 105 of `pull`: `self.state.local_commits.extend(commits)`. -/
def ledgerAfterPull (root : List String) (md5hex : List Nat → String)
    (fs : List String → Option FsEntry) (ledger : List CommitPost)
    (commits : List Commit) : List CommitPost :=
  ledger ++ pullCommitsPost root md5hex fs commits

theorem pullCommitsPost_ids_perm (root : List String) (md5hex : List Nat → String)
    (fs : List String → Option FsEntry) (commits : List Commit) :
    ((pullCommitsPost root md5hex fs commits).map CommitPost.commit_id).Perm
      (commits.map Commit.commit_id) := by
  have h1 : (commits.map (transformCommit root md5hex fs)).map CommitPost.commit_id =
      commits.map Commit.commit_id := by
    rw [List.map_map]
    rfl
  have h2 := (List.perm_insertionSort commitLE
    (commits.map (transformCommit root md5hex fs))).map CommitPost.commit_id
  rw [h1] at h2
  exact h2

def c6CommitA : Commit :=
  { commit_id := 2, name := "A", message := "ma", created_at := 2,
    author := { user_id := 1, username := "u" }, changes := [] }

def c6CommitB : Commit :=
  { commit_id := 1, name := "B", message := "mb", created_at := 1,
    author := { user_id := 1, username := "u" }, changes := [] }

def c6CommitC : Commit :=
  { commit_id := 3, name := "C", message := "mc", created_at := 3,
    author := { user_id := 1, username := "u" },
    changes := [⟨c1FileA1, ChangeCode.ADDED⟩] }

/-- C6 counterexample: `pull` sorts the caller's commit list in place by
creation time, so a list supplied as [created 2, created 1] comes back
reordered — the supplied sequence is not a read-only input. (Each change's
file object is also replaced by a freshly built `LocalFile`.) -/
theorem pull_mutates_cex :
    (pullCommitsPost [] (fun _ => "") (fun _ => none)
        [c6CommitA, c6CommitB]).map CommitPost.commit_id = [1, 2] ∧
    [c6CommitA, c6CommitB].map Commit.commit_id = [2, 1] := by
  refine ⟨by decide, by decide⟩

/-- C6 amended: `pull` does mutate the supplied commits: it replaces each
change's file with a `LocalFile` built from it and sorts the caller's list in
place by creation time. What is preserved: the multiset of commit ids, every
commit-level field (id, name, message, creation time, author), the number and
order of changes inside each commit and each change's identifying fields
(item id, filename, path, version, timestamp, kind); what changes: the list
order, and each change file's type — version list emptied, root directory set,
digest and size recomputed from disk. -/
theorem pull_commits_post_spec (root : List String) (md5hex : List Nat → String)
    (fs : List String → Option FsEntry) (commits : List Commit) :
    ((pullCommitsPost root md5hex fs commits).map CommitPost.commit_id).Perm
      (commits.map Commit.commit_id) ∧
    (∀ c, (transformCommit root md5hex fs c).commit_id = c.commit_id ∧
      (transformCommit root md5hex fs c).name = c.name ∧
      (transformCommit root md5hex fs c).message = c.message ∧
      (transformCommit root md5hex fs c).created_at = c.created_at ∧
      (transformCommit root md5hex fs c).author = c.author ∧
      (transformCommit root md5hex fs c).changes.length = c.changes.length) ∧
    (∀ c ch, ch ∈ (transformCommit root md5hex fs c).changes →
      ch.file.version_list = [] ∧ ch.file.root_directory = root) ∧
    (∀ c, (transformCommit root md5hex fs c).changes.map
        (fun p => (p.file.item_id, p.file.filename, p.file.path, p.file.last_version,
          p.file.last_update, p.change_code)) =
      c.changes.map (fun ch => (ch.file.item_id, ch.file.filename, ch.file.path,
        ch.file.last_version, ch.file.last_update, ch.change_code))) ∧
    (∀ p ∈ pullCommitsPost root md5hex fs commits,
      ∃ c ∈ commits, p = transformCommit root md5hex fs c) := by
  refine ⟨pullCommitsPost_ids_perm root md5hex fs commits, ?_, ?_, ?_, ?_⟩
  · intro c
    refine ⟨rfl, rfl, rfl, rfl, rfl, ?_⟩
    simp [transformCommit]
  · intro c ch hch
    simp only [transformCommit, List.mem_map] at hch
    obtain ⟨ch0, _, hche⟩ := hch
    rw [← hche]
    exact ⟨rfl, rfl⟩
  · intro c
    simp only [transformCommit, List.map_map]
    rfl
  · intro p hp
    have hmem : p ∈ commits.map (transformCommit root md5hex fs) := by
      have := (List.perm_insertionSort commitLE
        (commits.map (transformCommit root md5hex fs))).mem_iff.mp hp
      exact this
    obtain ⟨c, hc, hce⟩ := List.mem_map.mp hmem
    exact ⟨c, hc, hce.symm⟩

def c6Post1 : ChangePost :=
  ⟨toLocalFile [] (fun _ => "") (fun _ => none) c1FileA1, ChangeCode.ADDED⟩

/-- Witness for C6: the change-mutation conjunct applied at a concrete commit,
membership discharged by evaluation. -/
theorem pull_commits_post_spec_witness :
    c6Post1.file.version_list = [] ∧ c6Post1.file.root_directory = [] :=
  (pull_commits_post_spec [] (fun _ => "") (fun _ => none) [c6CommitC]).2.2.1
    c6CommitC c6Post1 (by decide)

def c7Post : CommitPost := transformCommit [] (fun _ => "") (fun _ => none) c6CommitB

/-- C7 counterexample: the ledger extension performed by `pull` is a plain
append with no deduplication, so appending a commit whose id is already in the
ledger produces duplicate ids. -/
theorem ledger_append_cex :
    ¬ ((ledgerAfterPull [] (fun _ => "") (fun _ => none) [c7Post]
        [c6CommitB]).map CommitPost.commit_id).Nodup := by
  decide

/-- C7 amended: `pull` appends the timestamp-sorted incoming batch after the
stored entries, never re-sorting what is already stored (the old ledger is an
unchanged prefix and the appended suffix is exactly the sorted incoming
batch); pairwise-distinct commit ids are preserved only under the hypothesis
that the incoming ids are pairwise distinct and disjoint from the ledger's —
appending commits whose ids already occur in the ledger does produce
duplicates. -/
theorem ledger_append_spec (root : List String) (md5hex : List Nat → String)
    (fs : List String → Option FsEntry) (ledger : List CommitPost)
    (commits : List Commit) :
    (ledgerAfterPull root md5hex fs ledger commits).take ledger.length = ledger ∧
    (ledgerAfterPull root md5hex fs ledger commits).drop ledger.length =
      pullCommitsPost root md5hex fs commits ∧
    ((ledger.map CommitPost.commit_id ++ commits.map Commit.commit_id).Nodup →
      ((ledgerAfterPull root md5hex fs ledger commits).map CommitPost.commit_id).Nodup) := by
  refine ⟨?_, ?_, ?_⟩
  · rw [ledgerAfterPull, List.take_left]
  · rw [ledgerAfterPull, List.drop_left]
  · intro h
    rw [ledgerAfterPull, List.map_append, List.nodup_append]
    rw [List.nodup_append] at h
    obtain ⟨h1, h2, h3⟩ := h
    have hperm := pullCommitsPost_ids_perm root md5hex fs commits
    refine ⟨h1, hperm.nodup_iff.mpr h2, ?_⟩
    intro a ha hb
    exact h3 ha (hperm.mem_iff.mp hb)

/-- Witness for C7: appending a batch with fresh distinct ids preserves
distinctness. -/
theorem ledger_append_spec_witness :
    ((ledgerAfterPull [] (fun _ => "") (fun _ => none) [c7Post]
        [c6CommitA]).map CommitPost.commit_id).Nodup :=
  (ledger_append_spec [] (fun _ => "") (fun _ => none) [c7Post] [c6CommitA]).2.2
    (by decide)

/-! ## Download progress (`src/entities/files.py` lines 108-167) -/

/-- `FileDownloadProgress`: per-file expected size and bytes received. -/
structure FileDownloadProgress where
  filename : String
  size : Nat
  downloaded : Nat
deriving DecidableEq

/-- `FileDownloadProgress.progress`: guarded percentage, 100 when the size
is 0. -/
def FileDownloadProgress.progress (p : FileDownloadProgress) : Nat :=
  if p.size = 0 then 100 else p.downloaded * 100 / p.size

/-- `BatchDownloadProgress` state. -/
structure BatchDownloadProgress where
  expected_batch_size : Nat
  increment : Nat
  quiet : Bool
  downloads : List (String × FileDownloadProgress)
  last_progress : Nat
  is_first_render : Bool
  total_downloaded : Nat
  total_size : Nat
deriving DecidableEq

/-- `BatchDownloadProgress.overall_progress`: unguarded ratio; evaluating it
with total size 0 is a `ZeroDivisionError`, modelled as `none`. -/
def overall_progress (s : BatchDownloadProgress) : Option Nat :=
  if s.total_size = 0 then none
  else some (s.total_downloaded * 100 / s.total_size)

/-- `BatchDownloadProgress.add`. -/
def addDownload (s : BatchDownloadProgress) (v : FileDownloadProgress) :
    BatchDownloadProgress :=
  { s with downloads := upsert s.downloads v.filename v,
           total_size := s.total_size + v.size }

/-- `BatchDownloadProgress.update_progress`; a missing key is a `KeyError`
(`none`). -/
def update_progress (s : BatchDownloadProgress) (filename : String)
    (downloaded : Nat) : Option BatchDownloadProgress :=
  match lookup s.downloads filename with
  | none => none
  | some fp => some
      { s with
          downloads := upsert s.downloads filename
            { fp with downloaded := fp.downloaded + downloaded },
          total_downloaded := s.total_downloaded + downloaded }

/-- What one `render` call prints: the initial listing of filenames and sizes,
or a line of per-file percentages. -/
inductive RenderOut where
  | listing (entries : List (String × Nat))
  | update (percents : List Nat)
deriving DecidableEq

/-- `BatchDownloadProgress.render`: the post state and what was printed
(inner `none` = nothing printed; outer `none` = `ZeroDivisionError` raised by
`overall_progress` past the thresholds). -/
def render (s : BatchDownloadProgress) :
    Option (BatchDownloadProgress × Option RenderOut) :=
  if s.downloads.length < s.expected_batch_size then some (s, none)
  else if s.quiet then some (s, none)
  else
    match overall_progress s with
    | none => none
    | some o =>
        if s.is_first_render then
          some ({ s with last_progress := o, is_first_render := false },
            some (RenderOut.listing
              (s.downloads.map (fun p => (p.2.filename, p.2.size)))))
        else if (s.increment : Int) < (o : Int) - (s.last_progress : Int) then
          some ({ s with last_progress := o },
            some (RenderOut.update (s.downloads.map (fun p => p.2.progress))))
        else some (s, none)

def c9Stale : BatchDownloadProgress :=
  { expected_batch_size := 1, increment := 10, quiet := false,
    downloads := [("f", ⟨"f", 10, 1⟩)], last_progress := 0,
    is_first_render := false, total_downloaded := 1, total_size := 10 }

/-- C9 counterexample: past the batch threshold, not quiet, not the first
render, aggregate progress has advanced by exactly the increment (10 points
with the default increment 10) since the last print — the claim says an update
is printed ("advanced by at least the increment"), but the code requires a
strictly greater advance (`>`), so nothing is printed and the state is
unchanged. -/
theorem render_cex :
    render c9Stale = some (c9Stale, none) ∧
    overall_progress c9Stale = some 10 ∧
    c9Stale.is_first_render = false ∧
    c9Stale.last_progress + c9Stale.increment ≤ 10 := by
  refine ⟨by decide, by decide, by decide, by decide⟩

/-- C9 amended: `render` prints nothing while the number of registered files is
below the expected batch size, and nothing at all when quiet; past the
threshold (and with the aggregate ratio defined), the first call prints the
initial listing exactly once (clearing the first-render flag), and every later
call prints an update exactly when the aggregate percent-complete has advanced
by STRICTLY more than the increment threshold since the last print — an
advance of exactly the increment prints nothing. -/
theorem render_spec (s : BatchDownloadProgress) (o : Nat)
    (ho : overall_progress s = some o) :
    (s.downloads.length < s.expected_batch_size → render s = some (s, none)) ∧
    (s.quiet = true → render s = some (s, none)) ∧
    (s.expected_batch_size ≤ s.downloads.length → s.quiet = false →
      ((s.is_first_render = true →
        render s = some ({ s with last_progress := o, is_first_render := false },
          some (RenderOut.listing
            (s.downloads.map (fun p => (p.2.filename, p.2.size)))))) ∧
      (s.is_first_render = false →
        (s.increment : Int) < (o : Int) - (s.last_progress : Int) →
        render s = some ({ s with last_progress := o },
          some (RenderOut.update (s.downloads.map (fun p => p.2.progress))))) ∧
      (s.is_first_render = false →
        (o : Int) - (s.last_progress : Int) ≤ (s.increment : Int) →
        render s = some (s, none)))) := by
  refine ⟨?_, ?_, ?_⟩
  · intro h
    rw [render, if_pos h]
  · intro hq
    rw [render]
    by_cases hlt : s.downloads.length < s.expected_batch_size
    · rw [if_pos hlt]
    · rw [if_neg hlt, if_pos hq]
  · intro hge hq
    have hnlt : ¬ s.downloads.length < s.expected_batch_size := not_lt.mpr hge
    have hnq : ¬ s.quiet = true := by simp [hq]
    refine ⟨?_, ?_, ?_⟩
    · intro hfirst
      rw [render, if_neg hnlt, if_neg hnq, ho]
      show (if s.is_first_render then _ else _) = _
      rw [if_pos hfirst]
    · intro hfirst hadv
      rw [render, if_neg hnlt, if_neg hnq, ho]
      show (if s.is_first_render then _ else _) = _
      rw [if_neg (by simp [hfirst]), if_pos hadv]
    · intro hfirst hadv
      rw [render, if_neg hnlt, if_neg hnq, ho]
      show (if s.is_first_render then _ else _) = _
      rw [if_neg (by simp [hfirst]), if_neg (not_lt.mpr hadv)]

def c9First : BatchDownloadProgress :=
  { expected_batch_size := 1, increment := 10, quiet := false,
    downloads := [("f", ⟨"f", 10, 5⟩)], last_progress := 0,
    is_first_render := true, total_downloaded := 5, total_size := 10 }

/-- Witness for C9: the first render past the threshold prints the listing and
clears the first-render flag. -/
theorem render_spec_witness :
    render c9First = some ({ c9First with last_progress := 50, is_first_render := false },
      some (RenderOut.listing [("f", 10)])) :=
  ((render_spec c9First 50 (by decide)).2.2 (by decide) rfl).1 rfl

/-- C10: the per-file progress percentage is total — in particular it returns
100 when the file's registered size is 0 — while the aggregate
`overall_progress` divides with no zero guard: with total registered size 0
evaluating it is a division by zero (`none`), and with positive total size it
is defined. -/
theorem progress_totality_spec :
    (∀ p : FileDownloadProgress, p.size = 0 → p.progress = 100) ∧
    (∀ s : BatchDownloadProgress, s.total_size = 0 → overall_progress s = none) ∧
    (∀ s : BatchDownloadProgress, 0 < s.total_size →
      overall_progress s = some (s.total_downloaded * 100 / s.total_size)) := by
  refine ⟨?_, ?_, ?_⟩
  · intro p h
    rw [FileDownloadProgress.progress, if_pos h]
  · intro s h
    rw [overall_progress, if_pos h]
  · intro s h
    rw [overall_progress, if_neg (by omega)]

def c10Zero : BatchDownloadProgress :=
  { expected_batch_size := 1, increment := 10, quiet := false,
    downloads := [], last_progress := 0,
    is_first_render := true, total_downloaded := 0, total_size := 0 }

/-- Witness for C10: a zero-size file reports 100 and a zero-total tracker's
aggregate is undefined. -/
theorem progress_totality_spec_witness :
    FileDownloadProgress.progress ⟨"f", 0, 0⟩ = 100 ∧
    overall_progress c10Zero = none :=
  ⟨progress_totality_spec.1 ⟨"f", 0, 0⟩ rfl,
   progress_totality_spec.2.1 c10Zero rfl⟩

end GrabCad
